import Mathlib

/-!
Shallow embedding of the image-processing core of `src/dash_app/app.py`
(grayscale-image analysis tool): pixel grids, the median filter, histogram
analysis, level adjustment, thresholding, the diff counts of the threshold
callback, the crop gate of the apply callback and the results-table row
construction, together with proofs settling the specification's claims.

Pixel grids are `List (List ℕ)` of 8-bit intensities.  The float64
arithmetic of `apply_level_adjustment` is modelled in exact rational
arithmetic; over 8-bit pixel values and bounds in `[0, 255]` the float64
computation of the source clips and truncates to exactly the same integers,
so the model is faithful on the whole domain the program uses.  The float
comparison `cum / total >= 0.01` of `analyse_histogram` is modelled by the
exact test `total ≤ 100 * cum`, which agrees with the float64 test for
every pixel total a real image can produce.
-/

set_option maxRecDepth 8000

namespace ImageProcess

/-- A grayscale image: rows of 8-bit intensity values. -/
abbrev Grid := List (List ℕ)

/-- `compute_histogram`: `np.bincount(arr.flatten(), minlength=256).tolist()`
for an 8-bit grid — bin `i` holds the number of pixels equal to `i`. -/
def compute_histogram (g : Grid) : List ℕ :=
  (List.range 256).map (fun i => g.flatten.countP (fun v => v == i))

/-- The forward scan of `analyse_histogram`: starting at bin `i` with
accumulated count `cum`, walk upward while the accumulated mass is below
1% of `total` (`total ≤ 100 * cum` is the exact form of the source's
`cum / total >= 0.01`) and return the first bin reaching the 1% mass.
The fuel counts the remaining loop iterations; when it runs out the result
is `0`, the initialisation `min_val` keeps in the source when the loop
never breaks. -/
def minScan (hist : List ℕ) (total : ℕ) : ℕ → ℕ → ℕ → ℕ
  | 0, _, _ => 0
  | fuel + 1, i, cum =>
    let c := cum + hist.getD i 0
    if total ≤ 100 * c then i else minScan hist total fuel (i + 1) c

/-- The backward scan of `analyse_histogram`: starting at bin `i` and
walking downward; `255` (the initialisation of `max_val`) when the fuel
runs out. -/
def maxScan (hist : List ℕ) (total : ℕ) : ℕ → ℕ → ℕ → ℕ
  | 0, _, _ => 255
  | fuel + 1, i, cum =>
    let c := cum + hist.getD i 0
    if total ≤ 100 * c then i else maxScan hist total fuel (i - 1) c

/-- The mass the backward scan of `analyse_histogram` has accumulated:
the sum of `n` histogram bins read downward from index `i`. -/
def revTake (hist : List ℕ) : ℕ → ℕ → ℕ
  | _, 0 => 0
  | i, n + 1 => hist.getD i 0 + revTake hist (i - 1) n

/-- The dictionary returned by `analyse_histogram`. -/
structure HistAnalysis where
  skewed : Bool
  min_val : ℕ
  max_val : ℕ
deriving DecidableEq

/-- `analyse_histogram`: safe defaults for an all-zero histogram, otherwise
the two 1%-tail percentile scans and the skew decision
`(max_val - min_val) < 200`. -/
def analyse_histogram (hist : List ℕ) : HistAnalysis :=
  let total := hist.sum
  if total = 0 then ⟨false, 0, 255⟩
  else
    let mn := minScan hist total 256 0 0
    let mx := maxScan hist total 256 255 0
    ⟨decide ((mx : ℤ) - (mn : ℤ) < 200), mn, mx⟩

/-- One pixel of `apply_level_adjustment`: the affine stretch
`(v - mn) / (mx - mn) * 255`, clipped to `[0, 255]` and converted with
`astype(np.uint8)`, which truncates toward zero; after the clip the value
is non-negative, so the truncation is the floor.  The source computes in
float64; for pixel values and bounds in `[0, 255]` the float64 results
truncate to exactly these integers. -/
def levelPixel (mn mx v : ℕ) : ℕ :=
  (⌊min 255 (max 0 (((v : ℚ) - (mn : ℚ)) / ((mx : ℚ) - (mn : ℚ)) * 255))⌋).toNat

/-- `apply_level_adjustment`: an unchanged copy when the range
`mx - mn` is not positive, otherwise the clipped affine stretch applied to
every pixel. -/
def apply_level_adjustment (g : Grid) (mn mx : ℕ) : Grid :=
  if mx ≤ mn then g else g.map (fun row => row.map (levelPixel mn mx))

/-- Modelled from the spec's words for comparison in claim C2 only: the
same affine map but rounded to the nearest integer (Python's banker's
rounding is irrelevant at the probe value used). -/
def levelPixelSpecRound (mn mx v : ℕ) : ℕ :=
  (round (min 255 (max 0 (((v : ℚ) - (mn : ℚ)) / ((mx : ℚ) - (mn : ℚ)) * 255)))).toNat

/-- `apply_threshold`: `np.where(arr <= t, 0, 255)`. -/
def apply_threshold (g : Grid) (t : ℕ) : Grid :=
  g.map (fun row => row.map (fun v => if v ≤ t then 0 else 255))

/-- `count_white`: `int(np.sum(arr == 255))`. -/
def count_white (g : Grid) : ℕ :=
  g.flatten.countP (fun v => v == 255)

/-- The joint-classification counts of the `on_threshold` callback: the
number of positions where the first binary grid holds `p` and the second
holds `q` (the masks `(bin1 == p) & (bin2 == q)`).  Both grids are
elementwise maps of one adjusted grid, so zipping the flattened grids
aligns the positions exactly as the elementwise numpy masks do. -/
def maskCount (b1 b2 : Grid) (p q : ℕ) : ℕ :=
  (b1.flatten.zip b2.flatten).countP (fun ab => ab.1 == p && ab.2 == q)

/-- scipy's default `reflect` boundary mode: fold an out-of-range index
into `[0, n)` by repeated reflection (`(d c b a | a b c d | d c b a)`).
The fuel bounds the number of reflections, ample for every index a median
window over a non-empty grid can produce. -/
def reflectIdx (n : ℕ) : ℕ → ℤ → ℕ
  | 0, _ => 0
  | fuel + 1, i =>
    if i < 0 then reflectIdx n fuel (-1 - i)
    else if (n : ℤ) ≤ i then reflectIdx n fuel (2 * (n : ℤ) - 1 - i)
    else i.toNat

/-- Insertion into a sorted list, for the rank selection of the median. -/
def insertSorted (x : ℕ) : List ℕ → List ℕ
  | [] => [x]
  | y :: ys => if x ≤ y then x :: y :: ys else y :: insertSorted x ys

/-- Insertion sort of the window values. -/
def sortList : List ℕ → List ℕ
  | [] => []
  | x :: xs => insertSorted x (sortList xs)

/-- The window offsets of a scipy size-`k` footprint with origin 0:
`-(k / 2), …, k - 1 - k / 2`. -/
def winOffsets (k : ℕ) : List ℤ :=
  (List.range k).map (fun j => (j : ℤ) - ((k / 2 : ℕ) : ℤ))

/-- One output pixel of scipy's `median_filter`: collect the `k × k`
reflected neighbourhood of `(i, j)` and take the element of rank
`k * k / 2` of its sorted values — the rank filter scipy uses for the
median (for odd `k` this is the middle element). -/
def medianAt (g : Grid) (k i j : ℕ) : ℕ :=
  let h := g.length
  let w := (g.headD []).length
  let vals := ((winOffsets k).map (fun di =>
    (winOffsets k).map (fun dj =>
      (g.getD (reflectIdx h (h + k + 4) ((i : ℤ) + di)) []).getD
        (reflectIdx w (w + k + 4) ((j : ℤ) + dj)) 0))).flatten
  (sortList vals).getD (k * k / 2) 0

/-- `apply_median`: `median_filter(arr, size=kernel_size).astype(np.uint8)`.
The source contains no kernel-size validation; scipy accepts any positive
size (even ones included) and raises only for a non-positive size, which
is modelled as `none`.  Medians of 8-bit values are 8-bit, so the uint8
cast is lossless. -/
def apply_median (g : Grid) (k : ℕ) : Option Grid :=
  if k = 0 then none
  else some ((List.range g.length).map (fun i =>
    (List.range ((g.headD []).length)).map (fun j => medianAt g k i j)))

/-- Python's `round` on an exact value: nearest integer, ties to even. -/
def pyRound (q : ℚ) : ℤ :=
  if q - (⌊q⌋ : ℚ) = 1 / 2 then (if ⌊q⌋ % 2 = 0 then ⌊q⌋ else ⌊q⌋ + 1)
  else round q

/-- The rectangle captured from the drawn shape, in (float) plot
coordinates, unordered and possibly out of bounds. -/
structure CropCoords where
  x0 : ℚ
  y0 : ℚ
  x1 : ℚ
  y1 : ℚ

/-- `original[y0:y1, x0:x1]` for normalized bounds. -/
def cropGrid (g : Grid) (x0 x1 y0 y1 : ℕ) : Grid :=
  ((g.drop y0).take (y1 - y0)).map (fun row => (row.drop x0).take (x1 - x0))

/-- The data the `on_apply` callback computes and writes to stores and
outputs when it proceeds. -/
structure ApplyOut where
  cropped : Grid
  filtered : Grid
  raw_hist : List ℕ
  analysis : HistAnalysis
  adjusted : Grid
  histogram : List ℕ

/-- The `on_apply` callback: crop normalisation (min/max ordering, Python
rounding, clamping to the image bounds) and the degenerate-crop gate,
then the crop → median filter → histogram analysis → conditional level
adjustment pipeline.  `none` models the `no_update` return that leaves
every store and output unchanged; the source also returns `no_update`
when the original image or the crop coordinates are missing, and scipy
raises on a non-positive kernel size. -/
def on_apply (original : Option Grid) (crop : Option CropCoords) (kernel_size : ℕ) :
    Option ApplyOut :=
  match original, crop with
  | some g, some c =>
    let h := g.length
    let w := (g.headD []).length
    let x0 : ℤ := max 0 (pyRound (min c.x0 c.x1))
    let x1 : ℤ := min (w : ℤ) (pyRound (max c.x0 c.x1))
    let y0 : ℤ := max 0 (pyRound (min c.y0 c.y1))
    let y1 : ℤ := min (h : ℤ) (pyRound (max c.y0 c.y1))
    if x1 - x0 < 2 ∨ y1 - y0 < 2 then none
    else
      let cropped := cropGrid g x0.toNat x1.toNat y0.toNat y1.toNat
      match apply_median cropped kernel_size with
      | none => none
      | some filtered =>
        let raw_hist := compute_histogram filtered
        let analysis := analyse_histogram raw_hist
        let adjusted :=
          if analysis.skewed then
            apply_level_adjustment filtered analysis.min_val analysis.max_val
          else filtered
        some ⟨cropped, filtered, raw_hist, analysis, adjusted, compute_histogram adjusted⟩
  | _, _ => none

/-- Render a rational with exactly two decimal places, as Python's
`f"{x:.2f}"` does on the exactly representable values the scenarios use
(nearest hundredth, ties to even). -/
def format2 (q : ℚ) : String :=
  let n : ℤ := pyRound (q * 100)
  let sign := if n < 0 then "-" else ""
  let m := n.natAbs
  sign ++ toString (m / 100) ++ "." ++
    (if m % 100 < 10 then "0" else "") ++ toString (m % 100)

/-- One row of the results table, with the displayed ratio string kept
alongside the exact values. -/
structure ResultRow where
  filename : String
  count1 : ℕ
  count2 : ℕ
  diff : ℤ
  ratio : ℚ
  ratioStr : String
deriving DecidableEq

/-- The `on_add_table` callback: reject (no-op) when the filename is empty
or the white-pixel counts are not yet available (the displayed counts are
modelled by their numeric values, `none` standing for the placeholder
dash), otherwise append the computed row. -/
def on_add_table (filename : String) (counts : Option (ℕ × ℕ))
    (tableData : List ResultRow) : List ResultRow :=
  if filename = "" then tableData
  else
    match counts with
    | none => tableData
    | some (c1, c2) =>
      tableData ++ [⟨filename, c1, c2, (c1 : ℤ) - (c2 : ℤ),
        if 0 < c1 then ((((c1 : ℤ) - (c2 : ℤ)) : ℤ) : ℚ) / (c1 : ℚ) * 100 else 0,
        format2 (if 0 < c1 then ((((c1 : ℤ) - (c2 : ℤ)) : ℤ) : ℚ) / (c1 : ℚ) * 100
          else 0)⟩]

/-- Reading a `getD` entry through a map over the pixels of a row. -/
theorem getD_map_pixel (l : List ℕ) (f : ℕ → ℕ) (j : ℕ) (hj : j < l.length) :
    (l.map f).getD j 0 = f (l.getD j 0) := by
  rw [List.getD_eq_getElem _ _ (by simpa using hj), List.getD_eq_getElem _ _ hj,
    List.getElem_map]

/-- Reading a `getD` row through a map over the rows of a grid. -/
theorem getD_map_row (g : Grid) (f : List ℕ → List ℕ) (i : ℕ) (hi : i < g.length) :
    (g.map f).getD i [] = f (g.getD i []) := by
  rw [List.getD_eq_getElem _ _ (by simpa using hi), List.getD_eq_getElem _ _ hi,
    List.getElem_map]

/-- Python's rounding of an exact integer is that integer. -/
theorem pyRound_intCast (z : ℤ) : pyRound ((z : ℤ) : ℚ) = z := by
  unfold pyRound
  rw [Int.floor_intCast, sub_self]
  rw [if_neg (by norm_num)]
  exact round_intCast z

/-- The affine value of the C2 probe pixel: 6 / 7 × 255 = 1530 / 7. -/
theorem levelProbe_val :
    ((((6 : ℕ) : ℚ)) - (((0 : ℕ) : ℚ))) / ((((7 : ℕ) : ℚ)) - (((0 : ℕ) : ℚ))) * 255 =
      1530 / 7 := by
  push_cast
  norm_num

/-- The source's truncation at the C2 probe pixel. -/
theorem levelPixel_probe : levelPixel 0 7 6 = 218 := by
  unfold levelPixel
  rw [levelProbe_val]
  rw [max_eq_right (by norm_num : (0 : ℚ) ≤ 1530 / 7)]
  rw [min_eq_right (by norm_num : (1530 / 7 : ℚ) ≤ 255)]
  rw [show ⌊(1530 / 7 : ℚ)⌋ = 218 from by (rw [Int.floor_eq_iff]; norm_num)]
  rfl

/-- The spec's round-to-nearest at the C2 probe pixel. -/
theorem levelPixelSpecRound_probe : levelPixelSpecRound 0 7 6 = 219 := by
  unfold levelPixelSpecRound
  rw [levelProbe_val]
  rw [max_eq_right (by norm_num : (0 : ℚ) ≤ 1530 / 7)]
  rw [min_eq_right (by norm_num : (1530 / 7 : ℚ) ≤ 255)]
  rw [round_eq]
  rw [show ⌊(1530 / 7 : ℚ) + 1 / 2⌋ = 219 from by (rw [Int.floor_eq_iff]; norm_num)]
  rfl

/-- The two-decimal rendering of the exact ratio 60. -/
theorem format2_sixty : format2 60 = "60.00" := by
  unfold format2
  rw [show (60 : ℚ) * 100 = ((6000 : ℤ) : ℚ) from by norm_num, pyRound_intCast]
  rfl

/-- C1 (counterexample): on the uniform histogram `[100] * 256` the first
bin whose cumulative 1% test passes is 2, not 0, so `analyse_histogram`
does not return `min_val = 0, max_val = 255, skewed = false`. -/
theorem C1_counterexample :
    analyse_histogram (List.replicate 256 100) ≠ ⟨false, 0, 255⟩ := by
  decide

/-- C1 (amended): on the uniform histogram `[100] * 256` (total 25600) the
1%-tail scans give `min_val = 2` and `max_val = 253`, and the histogram is
reported as not skewed. -/
theorem C1_uniform :
    analyse_histogram (List.replicate 256 100) = ⟨false, 2, 253⟩ := by
  decide

/-- C3 (counterexample): an even kernel size is not rejected:
`apply_median` on a 2 × 2 grid with kernel size 2 produces a filtered
output grid. -/
theorem C3_counterexample :
    apply_median [[5, 5], [5, 5]] 2 = some [[5, 5], [5, 5]] := by
  decide

/-- C3 (amended): `apply_median` performs no kernel-size validation of its
own: for every grid and every positive kernel size — even sizes and 1
included — it produces a filtered output grid; the restriction to
{3, 5, 7} is enforced only by the caller's closed dropdown menu. -/
theorem C3_no_validation (g : Grid) (k : ℕ) (hk : 0 < k) :
    ∃ out, apply_median g k = some out := by
  unfold apply_median
  rw [if_neg (by omega)]
  exact ⟨_, rfl⟩

/-- C3 (witness): the amended statement at the 2 × 2 grid and kernel 2. -/
theorem C3_witness : ∃ out, apply_median [[5, 5], [5, 5]] 2 = some out :=
  C3_no_validation [[5, 5], [5, 5]] 2 (by decide)

/-- C6: thresholding is idempotent: binarizing a binarized grid with the
same cutoff changes nothing. -/
theorem C6_idempotent (g : Grid) (t : ℕ) (ht : t ≤ 255)
    (hwf : ∀ row ∈ g, ∀ v ∈ row, v ≤ 255) :
    apply_threshold (apply_threshold g t) t = apply_threshold g t := by
  unfold apply_threshold
  rw [List.map_map]
  refine List.map_congr_left ?_
  intro row hrow
  simp only [Function.comp_apply, List.map_map]
  refine List.map_congr_left ?_
  intro v hv
  have hv255 := hwf row hrow v hv
  by_cases h : v ≤ t
  · simp [h]
  · have h255 : ¬ 255 ≤ t := by omega
    simp [h, h255]

/-- C6 (witness): idempotence at a concrete binary boundary grid. -/
theorem C6_witness :
    apply_threshold (apply_threshold [[0, 255], [100, 200]] 128) 128 =
      apply_threshold [[0, 255], [100, 200]] 128 :=
  C6_idempotent [[0, 255], [100, 200]] 128 (by decide) (by decide)

/-- C9: with bounds 0 and 255 the level adjustment is the identity on
every 8-bit grid. -/
theorem C9_identity (g : Grid) (hwf : ∀ row ∈ g, ∀ v ∈ row, v ≤ 255) :
    apply_level_adjustment g 0 255 = g := by
  unfold apply_level_adjustment
  rw [if_neg (by omega)]
  have hrow : ∀ row ∈ g, row.map (levelPixel 0 255) = row := by
    intro row hrowmem
    have hpix : ∀ v ∈ row, levelPixel 0 255 v = v := by
      intro v hv
      have hv255 := hwf row hrowmem v hv
      unfold levelPixel
      have h1 : (((v : ℚ) - ((0 : ℕ) : ℚ)) / (((255 : ℕ) : ℚ) - ((0 : ℕ) : ℚ)) * 255)
          = (v : ℚ) := by
        push_cast
        field_simp
      rw [h1]
      have h2 : max 0 (v : ℚ) = (v : ℚ) := max_eq_right (by positivity)
      have h3 : min 255 (v : ℚ) = (v : ℚ) := by
        refine min_eq_right ?_
        exact_mod_cast hv255
      rw [h2, h3, Int.floor_natCast]
      simp
    calc row.map (levelPixel 0 255) = row.map id := List.map_congr_left hpix
      _ = row := List.map_id row
  calc g.map (fun row => row.map (levelPixel 0 255)) = g.map id :=
        List.map_congr_left hrow
    _ = g := List.map_id g

/-- C9 (witness): identity at a concrete grid hitting both extremes. -/
theorem C9_witness :
    apply_level_adjustment [[0, 128, 255], [7, 200, 31]] 0 255 =
      [[0, 128, 255], [7, 200, 31]] :=
  C9_identity [[0, 128, 255], [7, 200, 31]] (by decide)

/-- C10: at the maximal cutoff 255 every 8-bit pixel, a 255-valued pixel
included, is mapped to black, so the thresholded grid is all zeros and its
white count is 0. -/
theorem C10_max_cutoff (g : Grid) (hwf : ∀ row ∈ g, ∀ v ∈ row, v ≤ 255) :
    (∀ row ∈ apply_threshold g 255, ∀ v ∈ row, v = 0) ∧
    count_white (apply_threshold g 255) = 0 := by
  have hall : ∀ row ∈ apply_threshold g 255, ∀ v ∈ row, v = 0 := by
    intro row hrow v hv
    unfold apply_threshold at hrow
    obtain ⟨r, hr, hrmap⟩ := List.mem_map.mp hrow
    rw [← hrmap] at hv
    obtain ⟨u, hu, humap⟩ := List.mem_map.mp hv
    have := hwf r hr u hu
    rw [← humap, if_pos this]
  refine ⟨hall, ?_⟩
  unfold count_white
  rw [List.countP_eq_zero]
  intro v hv
  obtain ⟨row, hrow, hvrow⟩ := List.mem_flatten.mp hv
  have := hall row hrow v hvrow
  simp [this]

/-- C10 (witness): the all-zero result and zero white count at a concrete
grid containing 255-valued pixels. -/
theorem C10_witness :
    (∀ row ∈ apply_threshold [[255, 0], [254, 255]] 255, ∀ v ∈ row, v = 0) ∧
    count_white (apply_threshold [[255, 0], [254, 255]] 255) = 0 :=
  C10_max_cutoff [[255, 0], [254, 255]] (by decide)

/-- C2 (counterexample): for the single pixel 6 with bounds (0, 7) the
affine value is 6 / 7 × 255 ≈ 218.57; the source truncates it to 218,
while the claim's round-to-nearest map gives 219. -/
theorem C2_counterexample :
    apply_level_adjustment [[6]] 0 7 ≠ [[levelPixelSpecRound 0 7 6]] ∧
    apply_level_adjustment [[6]] 0 7 = [[218]] ∧
    levelPixelSpecRound 0 7 6 = 219 := by
  have hcode : apply_level_adjustment [[6]] 0 7 = [[218]] := by
    unfold apply_level_adjustment
    rw [if_neg (by norm_num)]
    simp [levelPixel_probe]
  refine ⟨?_, hcode, levelPixelSpecRound_probe⟩
  rw [hcode, levelPixelSpecRound_probe]
  decide

/-- C2 (amended): for bounds with `mx > mn`, `apply_level_adjustment` maps
every pixel to the affine stretch clipped to [0, 255] and truncated toward
zero (the floor of the clipped value), not rounded to the nearest
integer. -/
theorem C2_truncation (g : Grid) (mn mx : ℕ) (hlt : mn < mx) (i j : ℕ)
    (hi : i < g.length) (hj : j < (g.getD i []).length) :
    ((apply_level_adjustment g mn mx).getD i []).getD j 0 =
      (⌊min 255 (max 0 ((((g.getD i []).getD j 0 : ℚ) - (mn : ℚ)) /
        ((mx : ℚ) - (mn : ℚ)) * 255))⌋).toNat := by
  unfold apply_level_adjustment
  rw [if_neg (show ¬ mx ≤ mn by omega)]
  rw [getD_map_row g _ i hi, getD_map_pixel _ _ j hj]
  rfl

/-- C2 (witness): the amended statement at the counterexample pixel,
evaluated: the stored pixel is the truncation 218. -/
theorem C2_witness :
    ((apply_level_adjustment [[6]] 0 7).getD 0 []).getD 0 0 = 218 := by
  have h := C2_truncation [[6]] 0 7 (by decide) 0 0 (by decide) (by decide)
  rw [h]
  show levelPixel 0 7 6 = 218
  exact levelPixel_probe

/-- Splitting the white pixels of the first binarization by the second
binarization's outcome, over one flattened pixel list. -/
theorem thresh_count_split (l : List ℕ) (t1 t2 : ℕ) :
    l.countP (fun v => (if v ≤ t1 then 0 else 255) == 255) =
      l.countP (fun v =>
        ((if v ≤ t1 then 0 else 255) == 255) &&
          ((if v ≤ t2 then 0 else 255) == 255)) +
      l.countP (fun v =>
        ((if v ≤ t1 then 0 else 255) == 255) &&
          ((if v ≤ t2 then 0 else 255) == 0)) := by
  induction l with
  | nil => simp
  | cons a l ih =>
    simp only [List.countP_cons]
    by_cases h1 : a ≤ t1 <;> by_cases h2 : a ≤ t2 <;> simp [h1, h2] <;> omega

/-- The four joint classifications partition the pixels, over one
flattened pixel list. -/
theorem thresh_count_total (l : List ℕ) (t1 t2 : ℕ) :
    l.countP (fun v =>
        ((if v ≤ t1 then 0 else 255) == 255) &&
          ((if v ≤ t2 then 0 else 255) == 255)) +
      l.countP (fun v =>
        ((if v ≤ t1 then 0 else 255) == 0) &&
          ((if v ≤ t2 then 0 else 255) == 0)) +
      l.countP (fun v =>
        ((if v ≤ t1 then 0 else 255) == 255) &&
          ((if v ≤ t2 then 0 else 255) == 0)) +
      l.countP (fun v =>
        ((if v ≤ t1 then 0 else 255) == 0) &&
          ((if v ≤ t2 then 0 else 255) == 255)) = l.length := by
  induction l with
  | nil => simp
  | cons a l ih =>
    simp only [List.countP_cons, List.length_cons]
    by_cases h1 : a ≤ t1 <;> by_cases h2 : a ≤ t2 <;> simp [h1, h2] <;> omega

/-- C5: the white count of the first binarization splits into the
both-white and white-in-1-only classes, and the four joint classes
partition the H × W pixels. -/
theorem C5_diff_invariant (g : Grid) (t1 t2 : ℕ) (H W : ℕ)
    (hH : g.length = H) (hW : ∀ row ∈ g, row.length = W) :
    count_white (apply_threshold g t1) =
      maskCount (apply_threshold g t1) (apply_threshold g t2) 255 255 +
        maskCount (apply_threshold g t1) (apply_threshold g t2) 255 0 ∧
    maskCount (apply_threshold g t1) (apply_threshold g t2) 255 255 +
      maskCount (apply_threshold g t1) (apply_threshold g t2) 0 0 +
      maskCount (apply_threshold g t1) (apply_threshold g t2) 255 0 +
      maskCount (apply_threshold g t1) (apply_threshold g t2) 0 255 = H * W := by
  have hflat : ∀ t : ℕ, (apply_threshold g t).flatten =
      g.flatten.map (fun v => if v ≤ t then 0 else 255) := by
    intro t
    unfold apply_threshold
    exact (List.map_flatten _ g).symm
  have hmask : ∀ p q : ℕ,
      maskCount (apply_threshold g t1) (apply_threshold g t2) p q =
        g.flatten.countP (fun v =>
          ((if v ≤ t1 then 0 else 255) == p) &&
            ((if v ≤ t2 then 0 else 255) == q)) := by
    intro p q
    unfold maskCount
    rw [hflat t1, hflat t2, List.zip_map', List.countP_map]
    rfl
  have hcw : count_white (apply_threshold g t1) =
      g.flatten.countP (fun v => (if v ≤ t1 then 0 else 255) == 255) := by
    unfold count_white
    rw [hflat t1, List.countP_map]
    rfl
  have hlen : g.flatten.length = H * W := by
    rw [List.length_flatten]
    have hconst : g.map List.length = g.map (fun _ => W) := List.map_congr_left hW
    rw [hconst, List.map_const', List.sum_replicate, smul_eq_mul, hH]
  constructor
  · rw [hcw, hmask 255 255, hmask 255 0]
    exact thresh_count_split g.flatten t1 t2
  · rw [hmask 255 255, hmask 0 0, hmask 255 0, hmask 0 255, ← hlen]
    exact thresh_count_total g.flatten t1 t2

/-- C5 (witness): the diff invariant at a concrete 2 × 2 grid and the
cutoffs 150 and 120. -/
theorem C5_witness :
    count_white (apply_threshold [[100, 200], [0, 255]] 150) =
      maskCount (apply_threshold [[100, 200], [0, 255]] 150)
          (apply_threshold [[100, 200], [0, 255]] 120) 255 255 +
        maskCount (apply_threshold [[100, 200], [0, 255]] 150)
          (apply_threshold [[100, 200], [0, 255]] 120) 255 0 ∧
    maskCount (apply_threshold [[100, 200], [0, 255]] 150)
        (apply_threshold [[100, 200], [0, 255]] 120) 255 255 +
      maskCount (apply_threshold [[100, 200], [0, 255]] 150)
        (apply_threshold [[100, 200], [0, 255]] 120) 0 0 +
      maskCount (apply_threshold [[100, 200], [0, 255]] 150)
        (apply_threshold [[100, 200], [0, 255]] 120) 255 0 +
      maskCount (apply_threshold [[100, 200], [0, 255]] 150)
        (apply_threshold [[100, 200], [0, 255]] 120) 0 255 = 2 * 2 :=
  C5_diff_invariant [[100, 200], [0, 255]] 150 120 2 2 (by decide) (by decide)

/-- C7: when the normalized crop region (min/max ordering, Python
rounding, clamping to the image bounds) has width or height below 2, the
apply callback returns the no-op: no downstream stage runs and every
store and output keeps its value. -/
theorem C7_degenerate_crop (g : Grid) (c : CropCoords) (k : ℕ)
    (hdeg : min (((g.headD []).length : ℤ)) (pyRound (max c.x0 c.x1)) -
          max 0 (pyRound (min c.x0 c.x1)) < 2 ∨
        min ((g.length : ℤ)) (pyRound (max c.y0 c.y1)) -
          max 0 (pyRound (min c.y0 c.y1)) < 2) :
    on_apply (some g) (some c) k = none := by
  simp only [on_apply]
  rw [if_pos hdeg]

/-- C7 (witness): a 1 × 1 crop rectangle on a 2 × 2 image is rejected. -/
theorem C7_witness :
    on_apply (some [[1, 2], [3, 4]]) (some ⟨0, 0, 1, 1⟩) 3 = none := by
  refine C7_degenerate_crop [[1, 2], [3, 4]] ⟨0, 0, 1, 1⟩ 3 (Or.inl ?_)
  show min ((([[1, 2], [3, 4]] : Grid).headD []).length : ℤ)
      (pyRound (max 0 1)) - max 0 (pyRound (min 0 1)) < 2
  rw [max_eq_right (zero_le_one), min_eq_left (zero_le_one)]
  rw [show ((1 : ℚ)) = (((1 : ℤ)) : ℚ) from by norm_num, pyRound_intCast]
  rw [show ((0 : ℚ)) = (((0 : ℤ)) : ℚ) from by norm_num, pyRound_intCast]
  decide

/-- An accepted call of `on_add_table` appends one row whose fields carry
the difference and the exact ratio of the counts, the displayed ratio
being its two-decimal rendering. -/
theorem addRow_spec (filename : String) (c1 c2 : ℕ) (table : List ResultRow)
    (hf : filename ≠ "") :
    ∃ r, on_add_table filename (some (c1, c2)) table = table ++ [r] ∧
      r.count1 = c1 ∧ r.count2 = c2 ∧
      r.diff = (c1 : ℤ) - (c2 : ℤ) ∧
      (0 < c1 → r.ratio * (c1 : ℚ) = ((c1 : ℚ) - (c2 : ℚ)) * 100) ∧
      (c1 = 0 → r.ratio = 0) ∧
      r.ratioStr = format2 r.ratio := by
  unfold on_add_table
  rw [if_neg hf]
  refine ⟨_, rfl, rfl, rfl, rfl, ?_, ?_, rfl⟩
  · intro hc1
    have hne : (c1 : ℚ) ≠ 0 := Nat.cast_ne_zero.mpr (by omega)
    rw [if_pos hc1]
    push_cast
    field_simp
  · intro hc0
    subst hc0
    rw [if_neg (by omega)]

/-- C8: every accepted row appends to the table with
`diff = count1 - count2` and `ratio = diff / count1 × 100` when
`count1 > 0` (stated multiplicatively) and `ratio = 0` otherwise, the
displayed ratio being the two-decimal rendering; and the scenario row for
("a.png", 1000, 400) records `diff = 600` and ratio string "60.00". -/
theorem C8_result_rows :
    (∀ (filename : String) (c1 c2 : ℕ) (table : List ResultRow),
      filename ≠ "" →
      ∃ r, on_add_table filename (some (c1, c2)) table = table ++ [r] ∧
        r.count1 = c1 ∧ r.count2 = c2 ∧
        r.diff = (c1 : ℤ) - (c2 : ℤ) ∧
        (0 < c1 → r.ratio * (c1 : ℚ) = ((c1 : ℚ) - (c2 : ℚ)) * 100) ∧
        (c1 = 0 → r.ratio = 0) ∧
        r.ratioStr = format2 r.ratio) ∧
    ∃ r, on_add_table "a.png" (some (1000, 400)) [] = [r] ∧
      r.diff = 600 ∧ r.ratioStr = "60.00" := by
  refine ⟨addRow_spec, ?_⟩
  obtain ⟨r, hr, hc1, hc2, hdiff, hratio, hzero, hstr⟩ :=
    addRow_spec "a.png" 1000 400 [] (by decide)
  refine ⟨r, by simpa using hr, ?_, ?_⟩
  · rw [hdiff]
    norm_num
  · have h60 : r.ratio = 60 := by
      have hmul := hratio (by norm_num)
      push_cast at hmul
      norm_num at hmul
      linarith
    rw [hstr, h60, format2_sixty]

/-- C8 (witness): the universal part applied at a concrete accepted
row. -/
theorem C8_witness :
    ∃ r, on_add_table "b.png" (some (10, 4)) [] = [] ++ [r] ∧
      r.count1 = 10 ∧ r.count2 = 4 ∧
      r.diff = ((10 : ℕ) : ℤ) - ((4 : ℕ) : ℤ) ∧
      (0 < (10 : ℕ) → r.ratio * ((10 : ℕ) : ℚ) =
        (((10 : ℕ) : ℚ) - ((4 : ℕ) : ℚ)) * 100) ∧
      ((10 : ℕ) = 0 → r.ratio = 0) ∧
      r.ratioStr = format2 r.ratio :=
  C8_result_rows.1 "b.png" 10 4 [] (by decide)

/-- The first element a scan reads at index `i`, as a one-element slice. -/
theorem take_one_drop_sum (hist : List ℕ) (i : ℕ) :
    ((hist.drop i).take 1).sum = hist.getD i 0 := by
  have h := List.getElem?_drop hist i 0
  rw [Nat.add_zero] at h
  rw [List.getD_eq_getElem?_getD, ← h]
  cases hd : hist.drop i with
  | nil => simp [hd]
  | cons a l => simp [hd]

/-- Peeling the first element off a forward slice of the histogram. -/
theorem take_succ_drop_sum (hist : List ℕ) (i n : ℕ) :
    ((hist.drop i).take (n + 1)).sum =
      hist.getD i 0 + ((hist.drop (i + 1)).take n).sum := by
  have hdd : hist.drop (i + 1) = (hist.drop i).drop 1 := by
    rw [List.drop_drop]
  cases hd : hist.drop i with
  | nil =>
    have h0 : hist.getD i 0 = 0 := by
      have h1 := take_one_drop_sum hist i
      rw [hd] at h1
      simpa using h1.symm
    rw [hdd, hd, h0]
    simp
  | cons a l =>
    have ha : hist.getD i 0 = a := by
      have h1 := take_one_drop_sum hist i
      rw [hd] at h1
      simpa using h1.symm
    rw [hdd, hd, ha]
    simp

/-- What the forward scan returns when the 1% mass is reachable within the
fuel: the first bin at which the accumulated mass passes the test, with
the mass strictly below the test one bin earlier. -/
theorem minScan_spec (hist : List ℕ) (total : ℕ) :
    ∀ (fuel i cum : ℕ), 0 < fuel →
      total ≤ 100 * (cum + ((hist.drop i).take fuel).sum) →
      i ≤ minScan hist total fuel i cum ∧
        minScan hist total fuel i cum < i + fuel ∧
        total ≤ 100 * (cum +
          ((hist.drop i).take (minScan hist total fuel i cum - i + 1)).sum) ∧
        (i < minScan hist total fuel i cum →
          100 * (cum +
            ((hist.drop i).take (minScan hist total fuel i cum - i)).sum) < total) := by
  intro fuel
  induction fuel with
  | zero => intro i cum h0; exact absurd h0 (by omega)
  | succ fuel ih =>
    intro i cum _ hreach
    by_cases hc : total ≤ 100 * (cum + hist.getD i 0)
    · have hr : minScan hist total (fuel + 1) i cum = i := by
        simp only [minScan]
        rw [if_pos hc]
      rw [hr]
      refine ⟨le_refl i, by omega, ?_, by omega⟩
      rw [Nat.sub_self, Nat.zero_add, take_one_drop_sum]
      exact hc
    · have hr : minScan hist total (fuel + 1) i cum =
          minScan hist total fuel (i + 1) (cum + hist.getD i 0) := by
        simp only [minScan]
        rw [if_neg hc]
      have hfuel : 0 < fuel := by
        rcases Nat.eq_zero_or_pos fuel with h0 | h
        · subst h0
          norm_num at hreach
          rw [take_one_drop_sum] at hreach
          exact absurd hreach hc
        · exact h
      have hreach2 : total ≤
          100 * ((cum + hist.getD i 0) + ((hist.drop (i + 1)).take fuel).sum) := by
        rw [take_succ_drop_sum] at hreach
        omega
      obtain ⟨h1, h2, h3, h4⟩ := ih (i + 1) (cum + hist.getD i 0) hfuel hreach2
      rw [hr]
      set r := minScan hist total fuel (i + 1) (cum + hist.getD i 0) with hrdef
      refine ⟨by omega, by omega, ?_, ?_⟩
      · have heq : r - i + 1 = (r - (i + 1) + 1) + 1 := by omega
        rw [heq, take_succ_drop_sum]
        omega
      · intro hir
        by_cases hcase : i + 1 < r
        · have h4x := h4 hcase
          have heq : r - i = (r - (i + 1)) + 1 := by omega
          rw [heq, take_succ_drop_sum]
          omega
        · have hri : r = i + 1 := by omega
          rw [hri, show i + 1 - i = 1 from by omega, take_one_drop_sum]
          omega

/-- What the backward scan returns when the 1% mass is reachable within
the fuel: the first bin, counting downward, at which the accumulated mass
passes the test, with the mass strictly below the test one bin later. -/
theorem maxScan_spec (hist : List ℕ) (total : ℕ) :
    ∀ (fuel i cum : ℕ), 0 < fuel → fuel ≤ i + 1 →
      total ≤ 100 * (cum + revTake hist i fuel) →
      maxScan hist total fuel i cum ≤ i ∧
        i < maxScan hist total fuel i cum + fuel ∧
        total ≤ 100 * (cum +
          revTake hist i (i - maxScan hist total fuel i cum + 1)) ∧
        (maxScan hist total fuel i cum < i →
          100 * (cum +
            revTake hist i (i - maxScan hist total fuel i cum)) < total) := by
  intro fuel
  induction fuel with
  | zero => intro i cum h0; exact absurd h0 (by omega)
  | succ fuel ih =>
    intro i cum _ hfi hreach
    by_cases hc : total ≤ 100 * (cum + hist.getD i 0)
    · have hr : maxScan hist total (fuel + 1) i cum = i := by
        simp only [maxScan]
        rw [if_pos hc]
      rw [hr]
      refine ⟨le_refl i, by omega, ?_, by omega⟩
      rw [Nat.sub_self, Nat.zero_add]
      have h1 : revTake hist i 1 = hist.getD i 0 := by simp [revTake]
      rw [h1]
      exact hc
    · have hfuel : 0 < fuel := by
        rcases Nat.eq_zero_or_pos fuel with h0 | h
        · subst h0
          norm_num at hreach
          have h1 : revTake hist i 1 = hist.getD i 0 := by simp [revTake]
          rw [h1] at hreach
          exact absurd hreach hc
        · exact h
      have hi1 : 1 ≤ i := by omega
      have hr : maxScan hist total (fuel + 1) i cum =
          maxScan hist total fuel (i - 1) (cum + hist.getD i 0) := by
        simp only [maxScan]
        rw [if_neg hc]
      have hfi2 : fuel ≤ (i - 1) + 1 := by omega
      have hreach2 : total ≤
          100 * ((cum + hist.getD i 0) + revTake hist (i - 1) fuel) := by
        have hstep : revTake hist i (fuel + 1) =
            hist.getD i 0 + revTake hist (i - 1) fuel := rfl
        rw [hstep] at hreach
        omega
      obtain ⟨h1, h2, h3, h4⟩ := ih (i - 1) (cum + hist.getD i 0) hfuel hfi2 hreach2
      rw [hr]
      set r := maxScan hist total fuel (i - 1) (cum + hist.getD i 0) with hrdef
      refine ⟨by omega, by omega, ?_, ?_⟩
      · have heq : i - r + 1 = ((i - 1) - r + 1) + 1 := by omega
        rw [heq]
        have hstep : revTake hist i (((i - 1) - r + 1) + 1) =
            hist.getD i 0 + revTake hist (i - 1) ((i - 1) - r + 1) := rfl
        rw [hstep]
        omega
      · intro hir
        by_cases hcase : r < i - 1
        · have h4x := h4 hcase
          have heq : i - r = ((i - 1) - r) + 1 := by omega
          rw [heq]
          have hstep : revTake hist i (((i - 1) - r) + 1) =
              hist.getD i 0 + revTake hist (i - 1) ((i - 1) - r) := rfl
          rw [hstep]
          omega
        · have hri : r = i - 1 := by omega
          rw [show i - r = 1 from by omega]
          have h1 : revTake hist i 1 = hist.getD i 0 := by simp [revTake]
          rw [h1]
          omega

/-- A downward slice of the histogram equals the matching forward
slice. -/
theorem revTake_eq (hist : List ℕ) :
    ∀ (n i : ℕ), n ≤ i + 1 →
      revTake hist i n = ((hist.drop (i + 1 - n)).take n).sum := by
  intro n
  induction n with
  | zero => intro i _; simp [revTake]
  | succ n ih =>
    intro i hn
    cases i with
    | zero =>
      have hn0 : n = 0 := by omega
      subst hn0
      have h1 : revTake hist 0 1 = hist.getD 0 0 := by simp [revTake]
      rw [h1, show (0 : ℕ) + 1 - 1 = 0 from rfl]
      exact (take_one_drop_sum hist 0).symm
    | succ i =>
      have ihh := ih i (by omega)
      have hstep : revTake hist (i + 1) (n + 1) =
          hist.getD (i + 1) 0 + revTake hist i n := rfl
      rw [hstep, ihh, show i + 1 + 1 - (n + 1) = i + 1 - n from by omega]
      rw [List.take_succ, List.sum_append]
      have hidx : (hist.drop (i + 1 - n))[n]? = hist[i + 1]? := by
        rw [List.getElem?_drop]
        congr 1
        omega
      rw [hidx, List.getD_eq_getElem?_getD]
      cases hist[i + 1]? with
      | none => simp
      | some a => simp [Nat.add_comm]

/-- C4: for every 256-bin histogram with positive total, the percentile
bounds of `analyse_histogram` satisfy `min_val ≤ max_val`, and the skew
flag is set exactly when the bounds span fewer than 200 levels. -/
theorem C4_bounds_and_skew (hist : List ℕ) (hlen : hist.length = 256)
    (hpos : 0 < hist.sum) :
    (analyse_histogram hist).min_val ≤ (analyse_histogram hist).max_val ∧
      ((analyse_histogram hist).skewed = true ↔
        ((analyse_histogram hist).max_val : ℤ) -
          ((analyse_histogram hist).min_val : ℤ) < 200) := by
  have htot : ¬ hist.sum = 0 := by omega
  have hfwd0 : hist.sum ≤ 100 * (0 + ((hist.drop 0).take 256).sum) := by
    rw [List.drop_zero, List.take_of_length_le (by omega)]
    omega
  obtain ⟨ha1, ha2, ha3, ha4⟩ :=
    minScan_spec hist hist.sum 256 0 0 (by norm_num) hfwd0
  have hrev256 : revTake hist 255 256 = hist.sum := by
    rw [revTake_eq hist 256 255 (by norm_num),
      show (255 : ℕ) + 1 - 256 = 0 from rfl, List.drop_zero,
      List.take_of_length_le (by omega)]
  have hbwd0 : hist.sum ≤ 100 * (0 + revTake hist 255 256) := by
    rw [hrev256]
    omega
  obtain ⟨hb1, hb2, hb3, hb4⟩ :=
    maxScan_spec hist hist.sum 256 255 0 (by norm_num) (by norm_num) hbwd0
  have hresult : analyse_histogram hist =
      ⟨decide ((maxScan hist hist.sum 256 255 0 : ℤ) -
          (minScan hist hist.sum 256 0 0 : ℤ) < 200),
        minScan hist hist.sum 256 0 0, maxScan hist hist.sum 256 255 0⟩ := by
    simp only [analyse_histogram]
    rw [if_neg htot]
  rw [hresult]
  set mn := minScan hist hist.sum 256 0 0 with hmn
  set mx := maxScan hist hist.sum 256 255 0 with hmx
  clear_value mn mx
  have hmnmx : mn ≤ mx := by
    by_contra hcon
    push_neg at hcon
    have hmn1 : 0 < mn := by omega
    have ha4x := ha4 hmn1
    rw [List.drop_zero, Nat.sub_zero] at ha4x
    have hmx255 : mx < 255 := by omega
    have hb4x := hb4 hmx255
    have hrevmx : revTake hist 255 (255 - mx) = (hist.drop (mx + 1)).sum := by
      rw [revTake_eq hist (255 - mx) 255 (by omega),
        show (255 : ℕ) + 1 - (255 - mx) = mx + 1 from by omega]
      rw [List.take_of_length_le (by rw [List.length_drop]; omega)]
    rw [hrevmx] at hb4x
    have hsplit : (hist.take mn).sum + (hist.drop mn).sum = hist.sum :=
      List.sum_take_add_sum_drop hist mn
    have hdm : hist.drop mn = (hist.drop (mx + 1)).drop (mn - (mx + 1)) := by
      rw [List.drop_drop, show mx + 1 + (mn - (mx + 1)) = mn from by omega]
    have hdle : (hist.drop mn).sum ≤ (hist.drop (mx + 1)).sum := by
      rw [hdm]
      have hsp := List.sum_take_add_sum_drop (hist.drop (mx + 1)) (mn - (mx + 1))
      omega
    omega
  refine ⟨hmnmx, ?_⟩
  show decide ((mx : ℤ) - (mn : ℤ) < 200) = true ↔ (mx : ℤ) - (mn : ℤ) < 200
  exact decide_eq_true_iff

/-- C4 (witness): the bounds and skew characterisation at the uniform
histogram. -/
theorem C4_witness :
    (analyse_histogram (List.replicate 256 100)).min_val ≤
        (analyse_histogram (List.replicate 256 100)).max_val ∧
      ((analyse_histogram (List.replicate 256 100)).skewed = true ↔
        ((analyse_histogram (List.replicate 256 100)).max_val : ℤ) -
          ((analyse_histogram (List.replicate 256 100)).min_val : ℤ) < 200) :=
  C4_bounds_and_skew (List.replicate 256 100) (by decide) (by decide)

end ImageProcess
